import Mathlib

/-!
Verification of the `cppclass::BinarySearchTree<T>` container
(`src/homework/src/hw09_binary_search_trees/hw09.h`) against its
natural-language specification.

The C++ class is a templated binary search tree over a totally ordered
element type; we instantiate `T := Int`.  A `Node*` is modelled by the
inductive `Tree` (`nil` stands for `nullptr`); the `BinarySearchTree`
object is the pair of its `m_root` pointer and its `m_size` counter
(`size_t`, modelled as `Nat`; no operation modelled here underflows or
overflows it from a consistent state, so the unbounded model agrees with
the machine counter on every state the theorems below speak about).

Member functions that mutate `*this` are modelled as functions returning
the new object (paired with the C++ return value where there is one).
The pointer surgery of `remove` is translated link for link; in
particular, where the C++ executes `delete p` WITHOUT clearing the last
link that points to `p`, the model keeps the node in the structure,
since the pointer graph reachable from `m_root` is unchanged by `delete`
(the freed node stays linked; subsequently dereferencing such a link is
undefined behaviour in C++, and the model reads the bytes as they were
left).
-/

namespace cppclass

/-- A `Node*`: either `nullptr` or a `Node` with `data`, `left`, `right`
(source lines 12-23). -/
inductive Tree where
  | nil : Tree
  | node (data : Int) (left : Tree) (right : Tree) : Tree
deriving DecidableEq, Repr

/-- The `BinarySearchTree` object state: `m_root` and `m_size`
(source lines 306-307). -/
structure BinarySearchTree where
  m_root : Tree
  m_size : Nat
deriving DecidableEq, Repr

/-- The default constructor: empty tree (source line 26). -/
def BinarySearchTree.empty : BinarySearchTree := ⟨Tree.nil, 0⟩

/-- The `while (current)` descent loop of `insert` (source lines 82-102),
entered with `current = m_root ≠ nullptr`.  Returns `some` of the updated
subtree when a new leaf was attached (return true), `none` when a
duplicate was met or the loop fell through (return false). -/
def insert_loop : Tree → Int → Option Tree
  | Tree.nil, _ => none
  | Tree.node d l r, v =>
    if v > d then
      match r with
      | Tree.nil => some (Tree.node d l (Tree.node v Tree.nil Tree.nil))
      | Tree.node rd rl rr =>
        (insert_loop (Tree.node rd rl rr) v).map (fun r2 => Tree.node d l r2)
    else if v < d then
      match l with
      | Tree.nil => some (Tree.node d (Tree.node v Tree.nil Tree.nil) r)
      | Tree.node ld ll lr =>
        (insert_loop (Tree.node ld ll lr) v).map (fun l2 => Tree.node d l2 r)
    else
      none

/-- Models `bool insert(const T&)` (source lines 73-105): if `m_size == 0` the
value becomes the root; otherwise descend and attach, or return false on
a duplicate. -/
def BinarySearchTree.insert (b : BinarySearchTree) (v : Int) :
    BinarySearchTree × Bool :=
  if b.m_size = 0 then
    (⟨Tree.node v Tree.nil Tree.nil, b.m_size + 1⟩, true)
  else
    match insert_loop b.m_root v with
    | some t => (⟨t, b.m_size + 1⟩, true)
    | none => (b, false)

/-- The `while (current->left->left) current = current->left;` walk and
the splice that follows it (source lines 139-152), applied to
`current = target->right`, which is known to have a left child.  Returns
the data copied into the target (`current->left->data` at the end of the
walk) and the updated subtree.  When the spliced minimum has no right
child the C++ executes `delete current->left` without clearing
`current->left`, so the node stays linked.  The final catch-all arm is
unreachable at every call site (the caller guarantees a left child). -/
def spliceMin : Tree → Int × Tree
  | Tree.node d (Tree.node ld (Tree.node a x y) lr) r =>
    let p := spliceMin (Tree.node ld (Tree.node a x y) lr)
    (p.1, Tree.node d p.2 r)
  | Tree.node d (Tree.node ld Tree.nil lr) r =>
    match lr with
    | Tree.nil => (ld, Tree.node d (Tree.node ld Tree.nil Tree.nil) r)
    | Tree.node a x y => (ld, Tree.node d (Tree.node a x y) r)
  | t => (0, t)

/-- The symmetric walk and splice on the left side (source lines
164-177), applied to `current = target->left`, known to have a right
child.  Same dangling-link behaviour when the maximum has no left
child. -/
def spliceMax : Tree → Int × Tree
  | Tree.node d l (Tree.node rd rl (Tree.node a x y)) =>
    let p := spliceMax (Tree.node rd rl (Tree.node a x y))
    (p.1, Tree.node d l p.2)
  | Tree.node d l (Tree.node rd rl Tree.nil) =>
    match rl with
    | Tree.nil => (rd, Tree.node d l (Tree.node rd Tree.nil Tree.nil))
    | Tree.node a x y => (rd, Tree.node d l (Tree.node a x y))
  | t => (0, t)

/-- The deletion policy applied at the located target node (source lines
129-182): successor splice when there is a right child, predecessor
splice when there is only a left child, and the leaf case
`delete target; m_size--;` which never clears the parent's (or
`m_root`'s) link to the target, so the target node stays in the
structure. -/
def removeTarget : Tree → Tree
  | Tree.node _ l (Tree.node rd Tree.nil rr) => Tree.node rd l rr
  | Tree.node _ l (Tree.node rd (Tree.node a x y) rr) =>
    let p := spliceMin (Tree.node rd (Tree.node a x y) rr)
    Tree.node p.1 l p.2
  | Tree.node _ (Tree.node ld ll Tree.nil) Tree.nil => Tree.node ld ll Tree.nil
  | Tree.node _ (Tree.node ld ll (Tree.node a x y)) Tree.nil =>
    let p := spliceMax (Tree.node ld ll (Tree.node a x y))
    Tree.node p.1 p.2 Tree.nil
  | Tree.node d Tree.nil Tree.nil => Tree.node d Tree.nil Tree.nil
  | t => t

/-- The target-search loop of `remove` (source lines 114-127) fused with
the mutation at the target: `none` when `value` was not found (return
false, nothing touched), `some` of the updated tree otherwise.  The
links above the target are untouched by the C++ code, so the functional
rebuild along the search path is exact. -/
def remove_find : Tree → Int → Option Tree
  | Tree.nil, _ => none
  | Tree.node d l r, v =>
    if d > v then
      (remove_find l v).map (fun l2 => Tree.node d l2 r)
    else if d < v then
      (remove_find r v).map (fun r2 => Tree.node d l r2)
    else
      some (removeTarget (Tree.node d l r))

/-- Models `bool remove(const T&)` (source lines 113-185). -/
def BinarySearchTree.remove (b : BinarySearchTree) (v : Int) :
    BinarySearchTree × Bool :=
  match remove_find b.m_root v with
  | none => (b, false)
  | some t => (⟨t, b.m_size - 1⟩, true)

/-- The descent loop of `bool contains(T) const` (source lines
193-205). -/
def containsLoop : Tree → Int → Bool
  | Tree.nil, _ => false
  | Tree.node d l r, v =>
    if d > v then containsLoop l v
    else if d < v then containsLoop r v
    else true

/-- Models `bool contains(T) const`. -/
def BinarySearchTree.contains (b : BinarySearchTree) (v : Int) : Bool :=
  containsLoop b.m_root v

/-- Models `size_t size() const` (source line 212). -/
def BinarySearchTree.size (b : BinarySearchTree) : Nat := b.m_size

/-- Models `isValid_helper` (source lines 249-257): bounds check against the
open lower/upper bounds inherited from ancestors (`nullptr` bound =
no constraint). -/
def isValid_helper : Tree → Option Int → Option Int → Bool
  | Tree.nil, _, _ => true
  | Tree.node d l r, lo, hi =>
    if (match lo with | some m => decide (d ≤ m) | none => false) ||
       (match hi with | some M => decide (d ≥ M) | none => false) then
      false
    else
      isValid_helper l lo (some d) && isValid_helper r (some d) hi

/-- Models `bool isValid() const` (source lines 245-247). -/
def BinarySearchTree.isValid (b : BinarySearchTree) : Bool :=
  isValid_helper b.m_root none none

/-- Models `prefix_insert` (source lines 275-281): pre-order walk of a subtree,
inserting every visited value via ordinary `insert`. -/
def prefix_insert (b : BinarySearchTree) : Tree → BinarySearchTree
  | Tree.nil => b
  | Tree.node d l r =>
    prefix_insert (prefix_insert (b.insert d).1 l) r

/-- The copy constructor (source lines 46-49): start empty, then
`prefix_insert(other.m_root)`. -/
def BinarySearchTree.copy (other : BinarySearchTree) : BinarySearchTree :=
  prefix_insert BinarySearchTree.empty other.m_root

/-- The move constructor (source lines 56-60): the new object takes
`other`'s root and size, `other` becomes empty.  Returns (new object,
state `other` is left in). -/
def BinarySearchTree.moveCtor (other : BinarySearchTree) :
    BinarySearchTree × BinarySearchTree :=
  (⟨other.m_root, other.m_size⟩, ⟨Tree.nil, 0⟩)

/-- Models `prefix_comp` (source lines 292-304): shape-sensitive structural
equality of two subtrees. -/
def prefix_comp : Tree → Tree → Bool
  | Tree.nil, Tree.nil => true
  | Tree.nil, Tree.node _ _ _ => false
  | Tree.node _ _ _, Tree.nil => false
  | Tree.node d1 l1 r1, Tree.node d2 l2 r2 =>
    if d1 ≠ d2 then false
    else prefix_comp l1 l2 && prefix_comp r1 r2

/-- Models `operator==` (source lines 220-222). -/
def BinarySearchTree.beq (a b : BinarySearchTree) : Bool :=
  prefix_comp a.m_root b.m_root

/-- Models `bisection_insert` (source lines 283-290): insert the midpoint of
`[lower, upper)`, then recurse on the two halves.  `arr[midpoint]` is
in bounds at every reachable call, so `getD` with a junk default is
exact. -/
def bisection_insert (arr : List Int) (b : BinarySearchTree)
    (lower upper : Nat) : BinarySearchTree :=
  if lower ≥ upper then b
  else
    let midpoint := (lower + upper) / 2
    let b1 := (b.insert (arr.getD midpoint 0)).1
    bisection_insert arr (bisection_insert arr b1 lower midpoint)
      (midpoint + 1) upper
termination_by upper - lower
decreasing_by
  all_goals omega

/-- A model of `std::sort` on the local copy of the input: ascending
insertion sort (for `Int`, `std::sort`'s result IS the ascending
reordering; stability is irrelevant). -/
def sortedInsert (x : Int) : List Int → List Int
  | [] => [x]
  | y :: ys => if x ≤ y then x :: y :: ys else y :: sortedInsert x ys

/-- Ascending sort of a list, modelling `std::sort(local_arr.begin(),
local_arr.end())` (source line 37). -/
def sortList : List Int → List Int
  | [] => []
  | x :: xs => sortedInsert x (sortList xs)

/-- The bulk constructor `BinarySearchTree(const T*, size_t)` (source
lines 34-39): copy, sort ascending, bisection-insert over
`[0, size)`. -/
def BinarySearchTree.ofArray (arr : List Int) : BinarySearchTree :=
  bisection_insert (sortList arr) BinarySearchTree.empty 0 arr.length

/-! ### Specification-side measurement functions -/

/-- Number of nodes reachable from a `Node*`. -/
def count : Tree → Nat
  | Tree.nil => 0
  | Tree.node _ l r => 1 + count l + count r

/-- Height of the reachable structure (empty tree has height 0). -/
def height : Tree → Nat
  | Tree.nil => 0
  | Tree.node _ l r => 1 + max (height l) (height r)

/-- Structural membership: `v` is held by some reachable node. -/
def memB : Tree → Int → Bool
  | Tree.nil, _ => false
  | Tree.node d l r, v => (v = d) || memB l v || memB r v

/-- Pre-order listing of the reachable values (node, left, right). -/
def preorder : Tree → List Int
  | Tree.nil => []
  | Tree.node d l r => d :: (preorder l ++ preorder r)

/-- The textbook functional BST insert; `insert_loop` agrees with it on
every search path that does not meet the value (proved below). -/
def ins : Tree → Int → Tree
  | Tree.nil, v => Tree.node v Tree.nil Tree.nil
  | Tree.node d l r, v =>
    if v > d then Tree.node d l (ins r v)
    else if v < d then Tree.node d (ins l v) r
    else Tree.node d l r

/-- Left fold of `ins` over a list of values. -/
def insFold : List Int → Tree → Tree
  | [], t => t
  | v :: vs, t => insFold vs (ins t v)

/-- Run a sequence of `insert` calls, also counting how many returned
`true` (succeeded). -/
def insertAll : BinarySearchTree → List Int → BinarySearchTree × Nat
  | b, [] => (b, 0)
  | b, v :: vs =>
    let r := b.insert v
    let p := insertAll r.1 vs
    (p.1, (if r.2 then 1 else 0) + p.2)

/-- The object invariant the spec's data model declares: the tracked
size equals the number of reachable nodes. -/
def Consistent (b : BinarySearchTree) : Prop := b.m_size = count b.m_root

/-- The object invariant: the BST ordering holds (as checked by the
source's own `isValid`). -/
def Valid (b : BinarySearchTree) : Prop :=
  isValid_helper b.m_root none none = true

/-! ### Lemmas about the bounds-checked ordering invariant -/

/-- An optional lower bound is satisfied by `v`. -/
def okLo : Option Int → Int → Prop
  | none, _ => True
  | some m, v => m < v

/-- An optional upper bound is satisfied by `v`. -/
def okHi : Option Int → Int → Prop
  | none, _ => True
  | some M, v => v < M

theorem isValid_node_iff (d : Int) (l r : Tree) (lo hi : Option Int) :
    isValid_helper (Tree.node d l r) lo hi = true ↔
      okLo lo d ∧ okHi hi d ∧ isValid_helper l lo (some d) = true ∧
        isValid_helper r (some d) hi = true := by
  cases lo <;> cases hi <;>
    · simp only [isValid_helper, okLo, okHi]
      split <;> simp_all <;> omega

theorem mem_lt_of_valid (t : Tree) (lo : Option Int) (M x : Int)
    (hv : isValid_helper t lo (some M) = true) (hm : memB t x = true) :
    x < M := by
  induction t generalizing lo M with
  | nil => simp [memB] at hm
  | node d l r ihl ihr =>
    rw [isValid_node_iff] at hv
    obtain ⟨-, hd, hl, hr⟩ := hv
    simp only [memB, Bool.or_eq_true, decide_eq_true_eq] at hm
    rcases hm with (rfl | hm) | hm
    · exact hd
    · exact lt_trans (ihl lo d hl hm) hd
    · exact ihr (some d) M hr hm

theorem mem_gt_of_valid (t : Tree) (hi : Option Int) (m x : Int)
    (hv : isValid_helper t (some m) hi = true) (hm : memB t x = true) :
    m < x := by
  induction t generalizing hi m with
  | nil => simp [memB] at hm
  | node d l r ihl ihr =>
    rw [isValid_node_iff] at hv
    obtain ⟨hd, -, hl, hr⟩ := hv
    simp only [memB, Bool.or_eq_true, decide_eq_true_eq] at hm
    rcases hm with (rfl | hm) | hm
    · exact hd
    · exact ihl (some d) m hl hm
    · exact lt_trans hd (ihr hi d hr hm)

/-- On a subtree satisfying the ordering invariant, the binary-search
descent of `contains` finds exactly the structurally present values. -/
theorem containsLoop_eq_memB (t : Tree) (lo hi : Option Int) (v : Int)
    (hv : isValid_helper t lo hi = true) :
    containsLoop t v = memB t v := by
  induction t generalizing lo hi with
  | nil => rfl
  | node d l r ihl ihr =>
    rw [isValid_node_iff] at hv
    obtain ⟨-, -, hl, hr⟩ := hv
    by_cases h1 : d > v
    · have hrv : memB r v = false := by
        cases hq : memB r v with
        | false => rfl
        | true => exact absurd (mem_gt_of_valid r hi d v hr hq) (by omega)
      simp [containsLoop, memB, h1, ihl lo (some d) hl, hrv]
      omega
    · by_cases h2 : d < v
      · have hlv : memB l v = false := by
          cases hq : memB l v with
          | false => rfl
          | true => exact absurd (mem_lt_of_valid l lo d v hl hq) (by omega)
        simp [containsLoop, memB, h1, h2, ihr (some d) hi hr, hlv]
        omega
      · have hvd : v = d := by omega
        simp [containsLoop, memB, h1, h2, hvd]

/-! ### Lemmas about the functional insert `ins` and the source loop -/

theorem memB_ins (t : Tree) (v x : Int) :
    memB (ins t v) x = (memB t x || decide (x = v)) := by
  induction t with
  | nil => simp [ins, memB]
  | node d l r ihl ihr =>
    by_cases h1 : v > d
    · rw [Bool.eq_iff_iff]
      simp [ins, h1, memB, ihr]
      tauto
    · by_cases h2 : v < d
      · rw [Bool.eq_iff_iff]
        simp [ins, h1, h2, memB, ihl]
        tauto
      · have hvd : v = d := by omega
        subst hvd
        rw [Bool.eq_iff_iff]
        simp [ins, memB]
        tauto

theorem count_ins (t : Tree) (v : Int) (h : memB t v = false) :
    count (ins t v) = count t + 1 := by
  induction t with
  | nil => simp [ins, count]
  | node d l r ihl ihr =>
    simp only [memB, Bool.or_eq_false_iff, decide_eq_false_iff_not] at h
    obtain ⟨⟨hvd, hl⟩, hr⟩ := h
    by_cases h1 : v > d
    · simp [ins, h1, count, ihr hr]
      omega
    · have h2 : v < d := by omega
      simp [ins, h1, h2, count, ihl hl]
      omega

theorem valid_ins (t : Tree) (lo hi : Option Int) (v : Int)
    (hv : isValid_helper t lo hi = true) (hlo : okLo lo v) (hhi : okHi hi v) :
    isValid_helper (ins t v) lo hi = true := by
  induction t generalizing lo hi with
  | nil =>
    simp only [ins]
    rw [isValid_node_iff]
    exact ⟨hlo, hhi, rfl, rfl⟩
  | node d l r ihl ihr =>
    rw [isValid_node_iff] at hv
    obtain ⟨hld, hhd, hl, hr⟩ := hv
    by_cases h1 : v > d
    · simp only [ins, if_pos h1]
      rw [isValid_node_iff]
      exact ⟨hld, hhd, hl, ihr (some d) hi hr (by simp [okLo]; omega) hhi⟩
    · by_cases h2 : v < d
      · simp only [ins, if_neg h1, if_pos h2]
        rw [isValid_node_iff]
        exact ⟨hld, hhd, ihl lo (some d) hl hlo (by simp [okHi]; omega), hr⟩
      · simp only [ins, if_neg h1, if_neg h2]
        rw [isValid_node_iff]
        exact ⟨hld, hhd, hl, hr⟩

theorem ins_eq_self_of_mem (t : Tree) (lo hi : Option Int) (v : Int)
    (hv : isValid_helper t lo hi = true) (hm : memB t v = true) :
    ins t v = t := by
  induction t generalizing lo hi with
  | nil => simp [memB] at hm
  | node d l r ihl ihr =>
    rw [isValid_node_iff] at hv
    obtain ⟨-, -, hl, hr⟩ := hv
    simp only [memB, Bool.or_eq_true, decide_eq_true_eq] at hm
    by_cases h1 : v > d
    · have hmr : memB r v = true := by
        rcases hm with (rfl | hml) | hmr
        · omega
        · exact absurd (mem_lt_of_valid l lo d v hl hml) (by omega)
        · exact hmr
      simp [ins, h1, ihr (some d) hi hr hmr]
    · by_cases h2 : v < d
      · have hml : memB l v = true := by
          rcases hm with (rfl | hml) | hmr
          · omega
          · exact hml
          · exact absurd (mem_gt_of_valid r hi d v hr hmr) (by omega)
        simp [ins, h1, h2, ihl lo (some d) hl hml]
      · simp [ins, h1, h2]

theorem insert_loop_of_not_mem (t : Tree) (v : Int) (hne : t ≠ Tree.nil)
    (h : memB t v = false) : insert_loop t v = some (ins t v) := by
  induction t with
  | nil => exact absurd rfl hne
  | node d l r ihl ihr =>
    simp only [memB, Bool.or_eq_false_iff, decide_eq_false_iff_not] at h
    obtain ⟨⟨hvd, hl⟩, hr⟩ := h
    by_cases h1 : v > d
    · cases r with
      | nil =>
        rw [insert_loop.eq_def]
        simp [ins, h1]
      | node rd rl rr =>
        rw [insert_loop.eq_def]
        simp only [if_pos h1, ihr (by simp) hr, Option.map_some]
        simp [ins, h1]
    · have h2 : v < d := by omega
      cases l with
      | nil =>
        rw [insert_loop.eq_def]
        simp [ins, h1, h2]
      | node ld ll lr =>
        rw [insert_loop.eq_def]
        simp only [if_neg h1, if_pos h2, ihl (by simp) hl, Option.map_some]
        simp [ins, h1, h2]

theorem insert_loop_of_mem (t : Tree) (lo hi : Option Int) (v : Int)
    (hv : isValid_helper t lo hi = true) (hm : memB t v = true) :
    insert_loop t v = none := by
  induction t generalizing lo hi with
  | nil => simp [memB] at hm
  | node d l r ihl ihr =>
    rw [isValid_node_iff] at hv
    obtain ⟨-, -, hl, hr⟩ := hv
    simp only [memB, Bool.or_eq_true, decide_eq_true_eq] at hm
    by_cases h1 : v > d
    · have hmr : memB r v = true := by
        rcases hm with (rfl | hml) | hmr
        · omega
        · exact absurd (mem_lt_of_valid l lo d v hl hml) (by omega)
        · exact hmr
      cases r with
      | nil => simp [memB] at hmr
      | node rd rl rr =>
        rw [insert_loop.eq_def]
        simp only [if_pos h1, ihr (some d) hi hr hmr]
        rfl
    · by_cases h2 : v < d
      · have hml : memB l v = true := by
          rcases hm with (rfl | hml) | hmr
          · omega
          · exact hml
          · exact absurd (mem_gt_of_valid r hi d v hr hmr) (by omega)
        cases l with
        | nil => simp [memB] at hml
        | node ld ll lr =>
          rw [insert_loop.eq_def]
          simp only [if_neg h1, if_pos h2, ihl lo (some d) hl hml]
          rfl
      · rw [insert_loop.eq_def]
        simp [h1, h2]

theorem count_eq_zero_iff (t : Tree) : count t = 0 ↔ t = Tree.nil := by
  cases t <;> simp [count]

/-! ### Behaviour of the member function `insert` on consistent objects -/

theorem insert_of_not_mem (b : BinarySearchTree) (v : Int)
    (hc : Consistent b) (h : memB b.m_root v = false) :
    b.insert v = (⟨ins b.m_root v, b.m_size + 1⟩, true) := by
  unfold BinarySearchTree.insert
  by_cases h0 : b.m_size = 0
  · have hnil : b.m_root = Tree.nil := by
      rw [Consistent] at hc
      rw [← count_eq_zero_iff]
      omega
    rw [if_pos h0, hnil]
    rfl
  · have hne : b.m_root ≠ Tree.nil := by
      intro hq
      rw [Consistent, hq] at hc
      simp [count] at hc
      omega
    rw [if_neg h0, insert_loop_of_not_mem b.m_root v hne h]

theorem insert_of_mem (b : BinarySearchTree) (v : Int)
    (hc : Consistent b) (hv : Valid b) (h : memB b.m_root v = true) :
    b.insert v = (b, false) := by
  unfold BinarySearchTree.insert
  have h0 : b.m_size ≠ 0 := by
    intro hq
    rw [Consistent, hq] at hc
    have : b.m_root = Tree.nil := (count_eq_zero_iff b.m_root).mp hc.symm
    rw [this] at h
    simp [memB] at h
  rw [if_neg h0, insert_loop_of_mem b.m_root none none v hv h]

/-- One `insert` call on a consistent, valid object: the root evolves by
the functional `ins` (in the duplicate case `ins` leaves the tree alone
too), and both object invariants are preserved. -/
theorem insert_step (b : BinarySearchTree) (v : Int)
    (hc : Consistent b) (hv : Valid b) :
    (b.insert v).1.m_root = ins b.m_root v ∧
      Consistent (b.insert v).1 ∧ Valid (b.insert v).1 ∧
      (b.insert v).2 = !memB b.m_root v ∧
      (b.insert v).1.m_size = b.m_size + (if (b.insert v).2 then 1 else 0) := by
  cases h : memB b.m_root v with
  | false =>
    rw [insert_of_not_mem b v hc h]
    refine ⟨rfl, ?_, ?_, rfl, rfl⟩
    · show b.m_size + 1 = count (ins b.m_root v)
      rw [count_ins b.m_root v h]
      exact congrArg (· + 1) hc
    · exact valid_ins b.m_root none none v hv trivial trivial
  | true =>
    rw [insert_of_mem b v hc hv h]
    exact ⟨(ins_eq_self_of_mem b.m_root none none v hv h).symm, hc, hv,
      rfl, rfl⟩

/-! ### Sequences of inserts -/

theorem insertAll_spec (l : List Int) (b : BinarySearchTree)
    (hc : Consistent b) (hv : Valid b) :
    Consistent (insertAll b l).1 ∧ Valid (insertAll b l).1 ∧
      (∀ x, memB (insertAll b l).1.m_root x = true ↔
        (memB b.m_root x = true ∨ x ∈ l)) ∧
      (insertAll b l).1.m_size = b.m_size + (insertAll b l).2 := by
  induction l generalizing b with
  | nil => exact ⟨hc, hv, fun x => by simp [insertAll], by simp [insertAll]⟩
  | cons v vs ih =>
    obtain ⟨hroot, hc2, hv2, hret, hsz⟩ := insert_step b v hc hv
    obtain ⟨ihc, ihv, ihmem, ihsz⟩ := ih (b.insert v).1 hc2 hv2
    refine ⟨ihc, ihv, ?_, ?_⟩
    · intro x
      show memB (insertAll (b.insert v).1 vs).1.m_root x = true ↔ _
      rw [ihmem x, hroot, memB_ins]
      simp only [Bool.or_eq_true, decide_eq_true_eq, List.mem_cons]
      tauto
    · show (insertAll (b.insert v).1 vs).1.m_size =
        b.m_size + ((if (b.insert v).2 then 1 else 0) +
          (insertAll (b.insert v).1 vs).2)
      rw [ihsz, hsz]
      omega

theorem insertAll_success_count (l : List Int) (b : BinarySearchTree)
    (hc : Consistent b) (hv : Valid b) (hd : l.Nodup)
    (hfresh : ∀ x ∈ l, memB b.m_root x = false) :
    (insertAll b l).2 = l.length := by
  induction l generalizing b with
  | nil => rfl
  | cons v vs ih =>
    obtain ⟨hroot, hc2, hv2, hret, -⟩ := insert_step b v hc hv
    have hbv : memB b.m_root v = false := hfresh v (by simp)
    have hsucc : (b.insert v).2 = true := by rw [hret, hbv]; rfl
    have hfresh2 : ∀ x ∈ vs, memB (b.insert v).1.m_root x = false := by
      intro x hx
      rw [hroot, memB_ins]
      have hxv : x ≠ v := by
        intro hq
        subst hq
        exact (List.nodup_cons.mp hd).1 hx
      simp [hfresh x (by simp [hx]), hxv]
    show (if (b.insert v).2 then 1 else 0) +
      (insertAll (b.insert v).1 vs).2 = vs.length + 1
    rw [hsucc, ih (b.insert v).1 hc2 hv2 (List.nodup_cons.mp hd).2 hfresh2]
    simp [Nat.add_comm]

/-! ### Pre-order reinsertion reconstructs a valid tree exactly -/

theorem mem_preorder (t : Tree) (x : Int) :
    x ∈ preorder t ↔ memB t x = true := by
  induction t with
  | nil => simp [preorder, memB]
  | node d l r ihl ihr =>
    simp [preorder, memB, ihl, ihr]
    tauto

theorem insFold_append (xs ys : List Int) (t : Tree) :
    insFold (xs ++ ys) t = insFold ys (insFold xs t) := by
  induction xs generalizing t with
  | nil => rfl
  | cons x xs ih => simp [insFold, ih]

theorem insFold_all_lt (xs : List Int) (a : Int) (l r : Tree)
    (h : ∀ x ∈ xs, x < a) :
    insFold xs (Tree.node a l r) = Tree.node a (insFold xs l) r := by
  induction xs generalizing l with
  | nil => rfl
  | cons x xs ih =>
    have hx : x < a := h x (by simp)
    have hrest : ∀ y ∈ xs, y < a := fun y hy => h y (by simp [hy])
    show insFold xs (ins (Tree.node a l r) x) = _
    have : ins (Tree.node a l r) x = Tree.node a (ins l x) r := by
      simp [ins, show ¬x > a by omega, hx]
    rw [this, ih (ins l x) hrest]
    rfl

theorem insFold_all_gt (ys : List Int) (a : Int) (l r : Tree)
    (h : ∀ y ∈ ys, a < y) :
    insFold ys (Tree.node a l r) = Tree.node a l (insFold ys r) := by
  induction ys generalizing r with
  | nil => rfl
  | cons y ys ih =>
    have hy : a < y := h y (by simp)
    have hrest : ∀ x ∈ ys, a < x := fun x hx => h x (by simp [hx])
    show insFold ys (ins (Tree.node a l r) y) = _
    have : ins (Tree.node a l r) y = Tree.node a l (ins r y) := by
      simp [ins, hy]
    rw [this, ih (ins r y) hrest]
    rfl

/-- Folding the pre-order listing of a subtree that satisfies the
ordering invariant back into an empty tree rebuilds the identical
structure. -/
theorem preorder_reconstruct (t : Tree) (lo hi : Option Int)
    (hv : isValid_helper t lo hi = true) :
    insFold (preorder t) Tree.nil = t := by
  induction t generalizing lo hi with
  | nil => rfl
  | node a l r ihl ihr =>
    rw [isValid_node_iff] at hv
    obtain ⟨-, -, hl, hr⟩ := hv
    have hlt : ∀ x ∈ preorder l, x < a := fun x hx =>
      mem_lt_of_valid l lo a x hl ((mem_preorder l x).mp hx)
    have hgt : ∀ y ∈ preorder r, a < y := fun y hy =>
      mem_gt_of_valid r hi a y hr ((mem_preorder r y).mp hy)
    show insFold (a :: (preorder l ++ preorder r)) Tree.nil = _
    rw [show insFold (a :: (preorder l ++ preorder r)) Tree.nil =
          insFold (preorder l ++ preorder r)
            (Tree.node a Tree.nil Tree.nil) from rfl,
      insFold_append, insFold_all_lt (preorder l) a Tree.nil Tree.nil hlt,
      ihl lo (some a) hl,
      insFold_all_gt (preorder r) a l Tree.nil hgt, ihr (some a) hi hr]

/-- Walking a subtree in pre-order and inserting every visited value via
the member `insert` drives the root by `insFold` over the pre-order
listing, and preserves both object invariants. -/
theorem prefix_insert_root (t : Tree) (b : BinarySearchTree)
    (hc : Consistent b) (hv : Valid b) :
    (prefix_insert b t).m_root = insFold (preorder t) b.m_root ∧
      Consistent (prefix_insert b t) ∧ Valid (prefix_insert b t) := by
  induction t generalizing b with
  | nil => exact ⟨rfl, hc, hv⟩
  | node d l r ihl ihr =>
    obtain ⟨hroot, hc1, hv1, -, -⟩ := insert_step b d hc hv
    obtain ⟨hrootl, hcl, hvl⟩ := ihl (b.insert d).1 hc1 hv1
    obtain ⟨hrootr, hcr, hvr⟩ := ihr (prefix_insert (b.insert d).1 l) hcl hvl
    refine ⟨?_, hcr, hvr⟩
    show (prefix_insert (prefix_insert (b.insert d).1 l) r).m_root = _
    rw [hrootr, hrootl, hroot]
    show _ = insFold (d :: (preorder l ++ preorder r)) b.m_root
    rw [show insFold (d :: (preorder l ++ preorder r)) b.m_root =
          insFold (preorder l ++ preorder r) (ins b.m_root d) from rfl,
      insFold_append]

/-- The copy constructor of a valid tree reproduces the root structure
exactly, and the copy is consistent. -/
theorem copy_root_eq (b : BinarySearchTree) (hv : Valid b) :
    b.copy.m_root = b.m_root ∧ Consistent b.copy := by
  obtain ⟨hroot, hc, -⟩ :=
    prefix_insert_root b.m_root BinarySearchTree.empty rfl rfl
  refine ⟨?_, hc⟩
  rw [BinarySearchTree.copy, hroot]
  exact preorder_reconstruct b.m_root none none hv

theorem prefix_comp_refl (t : Tree) : prefix_comp t t = true := by
  induction t with
  | nil => rfl
  | node d l r ihl ihr => simp [prefix_comp, ihl, ihr]

theorem remove_find_none (t : Tree) (v : Int) (h : memB t v = false) :
    remove_find t v = none := by
  induction t with
  | nil => rfl
  | node d l r ihl ihr =>
    simp only [memB, Bool.or_eq_false_iff, decide_eq_false_iff_not] at h
    obtain ⟨⟨hvd, hl⟩, hr⟩ := h
    by_cases h1 : d > v
    · rw [remove_find.eq_def]
      simp only [if_pos h1, ihl hl]
      rfl
    · have h2 : d < v := by omega
      rw [remove_find.eq_def]
      simp only [if_neg h1, if_pos h2, ihr hr]
      rfl

/-! ### The claims -/

/-- C1.  The claim states that for every tree and every value present in
it, `remove(value)` returns true, removes exactly one node, decreases
`size()` by one, and afterwards `contains(value)` is false.  The code
violates this: removing the only value of a one-node tree (built by
`insert(5)`) returns true and decrements `m_size` to 0, but `delete
target` in the childless case never clears `m_root` (nor, in general,
the parent's link), so the node is still reachable: `contains(5)` still
returns true and the reachable node count is still 1 — no node was
unlinked at all. -/
theorem remove_leaf_dangling_bug :
    ((BinarySearchTree.empty.insert 5).1.remove 5).2 = true ∧
      ((BinarySearchTree.empty.insert 5).1.remove 5).1.size = 0 ∧
      ((BinarySearchTree.empty.insert 5).1.remove 5).1.contains 5 = true ∧
      count ((BinarySearchTree.empty.insert 5).1.remove 5).1.m_root = 1 := by
  decide

/-- C2.  The claim states that `is_valid()` holds after every sequence
of inserts and removes from the empty tree.  The code violates this:
after `insert 2; insert 5; insert 3`, removing 2 copies the in-order
successor 3 into the target but the `delete current->left` branch never
clears `current->left`, so the successor node stays linked and the value
3 now appears twice (at the root and inside the right subtree below 5),
violating the strict bounds — `isValid()` returns false. -/
theorem remove_invalidates_tree_bug :
    (insertAll BinarySearchTree.empty [2, 5, 3]).1.isValid = true ∧
      ((insertAll BinarySearchTree.empty [2, 5, 3]).1.remove 2).2 = true ∧
      ((insertAll BinarySearchTree.empty [2, 5, 3]).1.remove 2).1.isValid
        = false := by
  decide

/-- C3.  The claim states that after every sequence of public operations
the tracked size equals the number of nodes reachable from the root.
The code violates this: after `insert 2; insert 5; insert 3; remove 2`
the counter says 2 but three nodes are reachable (the deleted successor
was never unlinked). -/
theorem size_reachable_mismatch_bug :
    ((insertAll BinarySearchTree.empty [2, 5, 3]).1.remove 2).1.size = 2 ∧
      count ((insertAll BinarySearchTree.empty [2, 5, 3]).1.remove 2).1.m_root
        = 3 := by
  decide

/-- C4.  `insert(value)` inserts the value iff it is not already
present: on an absent value it returns true, `size()` grows by exactly
one and the value is afterwards in the tree; on a present value it
returns false and the object is completely unchanged.  Proved for every
object satisfying the data model's invariants (ordering holds and the
size counter matches the reachable node count). -/
theorem insert_contract (b : BinarySearchTree) (v : Int)
    (hv : Valid b) (hc : Consistent b) :
    (memB b.m_root v = false →
      (b.insert v).2 = true ∧ (b.insert v).1.size = b.size + 1 ∧
        memB (b.insert v).1.m_root v = true) ∧
    (memB b.m_root v = true →
      (b.insert v).2 = false ∧ (b.insert v).1 = b) := by
  constructor
  · intro h
    rw [insert_of_not_mem b v hc h]
    refine ⟨rfl, rfl, ?_⟩
    rw [memB_ins]
    simp
  · intro h
    rw [insert_of_mem b v hc hv h]
    exact ⟨rfl, rfl⟩

/-- Witness for C4 at the one-node tree holding 2: inserting the absent
value 3 returns true, grows the size to 2 and makes 3 present. -/
theorem insert_contract_witness :
    Valid ⟨Tree.node 2 Tree.nil Tree.nil, 1⟩ ∧
      Consistent ⟨Tree.node 2 Tree.nil Tree.nil, 1⟩ ∧
      memB (⟨Tree.node 2 Tree.nil Tree.nil, 1⟩ :
        BinarySearchTree).m_root 3 = false ∧
      (((⟨Tree.node 2 Tree.nil Tree.nil, 1⟩ :
          BinarySearchTree).insert 3).2 = true ∧
        ((⟨Tree.node 2 Tree.nil Tree.nil, 1⟩ :
          BinarySearchTree).insert 3).1.size =
          (⟨Tree.node 2 Tree.nil Tree.nil, 1⟩ :
            BinarySearchTree).size + 1 ∧
        memB ((⟨Tree.node 2 Tree.nil Tree.nil, 1⟩ :
          BinarySearchTree).insert 3).1.m_root 3 = true) :=
  ⟨by unfold Valid; decide, by unfold Consistent; decide, by decide,
    (insert_contract ⟨Tree.node 2 Tree.nil Tree.nil, 1⟩ 3
      (by unfold Valid; decide) (by unfold Consistent; decide)).1
      (by decide)⟩

/-- C5.  Inserting any sequence of distinct values into an initially
empty tree makes `contains` return true exactly on the inserted values,
and `size()` equals the number of successful inserts (which is all of
them). -/
theorem insert_sequence_spec (l : List Int) (hd : l.Nodup) :
    (∀ v, (insertAll BinarySearchTree.empty l).1.contains v
        = decide (v ∈ l)) ∧
      (insertAll BinarySearchTree.empty l).1.size
        = (insertAll BinarySearchTree.empty l).2 ∧
      (insertAll BinarySearchTree.empty l).2 = l.length := by
  obtain ⟨hc, hv, hmem, hsz⟩ :=
    insertAll_spec l BinarySearchTree.empty rfl rfl
  refine ⟨?_, ?_, ?_⟩
  · intro v
    rw [Bool.eq_iff_iff]
    show containsLoop (insertAll BinarySearchTree.empty l).1.m_root v
      = true ↔ _
    rw [containsLoop_eq_memB _ none none v hv, hmem v]
    simp [BinarySearchTree.empty, memB]
  · rw [BinarySearchTree.size, hsz]
    simp [BinarySearchTree.empty]
  · exact insertAll_success_count l BinarySearchTree.empty rfl rfl hd
      (fun x hx => rfl)

/-- Witness for C5 at the distinct sequence `[3, 1, 2]`: every inserted
value is contained, 4 is not, and the size is 3. -/
theorem insert_sequence_spec_witness :
    ([3, 1, 2] : List Int).Nodup ∧
      ((insertAll BinarySearchTree.empty [3, 1, 2]).1.contains 2
          = decide ((2 : Int) ∈ [3, 1, 2]) ∧
        (insertAll BinarySearchTree.empty [3, 1, 2]).1.contains 4
          = decide ((4 : Int) ∈ [3, 1, 2]) ∧
        (insertAll BinarySearchTree.empty [3, 1, 2]).2 = 3) :=
  ⟨by decide,
    (insert_sequence_spec [3, 1, 2] (by decide)).1 2,
    (insert_sequence_spec [3, 1, 2] (by decide)).1 4,
    (insert_sequence_spec [3, 1, 2] (by decide)).2.2⟩

/-- C6.  Removing a value that is nowhere in the reachable structure
returns false and leaves the object byte-for-byte unchanged (the search
loop reaches a null link and `remove` returns before touching any node
or the size counter).  This holds for every object, even ones whose
ordering invariant is broken. -/
theorem remove_absent_unchanged (b : BinarySearchTree) (v : Int)
    (h : memB b.m_root v = false) : b.remove v = (b, false) := by
  unfold BinarySearchTree.remove
  rw [remove_find_none b.m_root v h]

/-- Witness for C6: removing the absent value 7 from the one-node tree
holding 2 returns false and changes nothing. -/
theorem remove_absent_unchanged_witness :
    memB (⟨Tree.node 2 Tree.nil Tree.nil, 1⟩ :
        BinarySearchTree).m_root 7 = false ∧
      (⟨Tree.node 2 Tree.nil Tree.nil, 1⟩ :
        BinarySearchTree).remove 7 =
        (⟨Tree.node 2 Tree.nil Tree.nil, 1⟩, false) :=
  ⟨by decide,
    remove_absent_unchanged ⟨Tree.node 2 Tree.nil Tree.nil, 1⟩ 7 (by decide)⟩

/-- C7.  Bulk construction from `{1,2,3,4,5,6,7}` sorts the input and
bisection-inserts midpoints: the result has root 4, the minimal height
3 = ⌈log2 8⌉, children 2 and 6 and leaves 1, 3, 5, 7 — the same tree as
inserting 4 then 2 then 6 then 1, 3, 5, 7 into an empty tree. -/
theorem bulk_construct_balanced :
    BinarySearchTree.ofArray [1, 2, 3, 4, 5, 6, 7] =
      ⟨Tree.node 4
        (Tree.node 2 (Tree.node 1 Tree.nil Tree.nil)
          (Tree.node 3 Tree.nil Tree.nil))
        (Tree.node 6 (Tree.node 5 Tree.nil Tree.nil)
          (Tree.node 7 Tree.nil Tree.nil)), 7⟩ ∧
      height (BinarySearchTree.ofArray [1, 2, 3, 4, 5, 6, 7]).m_root = 3 ∧
      BinarySearchTree.ofArray [1, 2, 3, 4, 5, 6, 7] =
        (insertAll BinarySearchTree.empty [4, 2, 6, 1, 3, 5, 7]).1 := by
  have h1 : BinarySearchTree.ofArray [1, 2, 3, 4, 5, 6, 7] =
      ⟨Tree.node 4
        (Tree.node 2 (Tree.node 1 Tree.nil Tree.nil)
          (Tree.node 3 Tree.nil Tree.nil))
        (Tree.node 6 (Tree.node 5 Tree.nil Tree.nil)
          (Tree.node 7 Tree.nil Tree.nil)), 7⟩ := by
    simp [BinarySearchTree.ofArray, sortList, sortedInsert, bisection_insert,
      BinarySearchTree.insert, insert_loop, BinarySearchTree.empty]
  refine ⟨h1, ?_, ?_⟩
  · rw [h1]
    rfl
  · rw [h1]
    decide

/-- C8.  Copy construction of a valid, size-consistent tree yields a
tree of equal size whose `contains` agrees with the original on every
probed value. -/
theorem copy_size_contains (b : BinarySearchTree)
    (hv : Valid b) (hc : Consistent b) :
    b.copy.size = b.size ∧ ∀ v, b.copy.contains v = b.contains v := by
  obtain ⟨hroot, hcc⟩ := copy_root_eq b hv
  constructor
  · show b.copy.m_size = b.m_size
    rw [Consistent] at hcc hc
    rw [hcc, hroot, ← hc]
  · intro v
    show containsLoop b.copy.m_root v = containsLoop b.m_root v
    rw [hroot]

/-- Witness for C8 at the two-node tree with root 2 and left child 1. -/
theorem copy_size_contains_witness :
    Valid ⟨Tree.node 2 (Tree.node 1 Tree.nil Tree.nil) Tree.nil, 2⟩ ∧
      Consistent ⟨Tree.node 2 (Tree.node 1 Tree.nil Tree.nil) Tree.nil, 2⟩ ∧
      ((⟨Tree.node 2 (Tree.node 1 Tree.nil Tree.nil) Tree.nil, 2⟩ :
          BinarySearchTree).copy.size =
        (⟨Tree.node 2 (Tree.node 1 Tree.nil Tree.nil) Tree.nil, 2⟩ :
          BinarySearchTree).size ∧
        ∀ v, (⟨Tree.node 2 (Tree.node 1 Tree.nil Tree.nil) Tree.nil, 2⟩ :
            BinarySearchTree).copy.contains v =
          (⟨Tree.node 2 (Tree.node 1 Tree.nil Tree.nil) Tree.nil, 2⟩ :
            BinarySearchTree).contains v) :=
  ⟨by unfold Valid; decide, by unfold Consistent; decide,
    copy_size_contains ⟨Tree.node 2 (Tree.node 1 Tree.nil Tree.nil)
      Tree.nil, 2⟩ (by unfold Valid; decide)
      (by unfold Consistent; decide)⟩

/-- C9.  Move construction transfers root and size wholesale: the new
object is exactly the old object's state, and the source is left empty —
its `size()` is 0 and `contains` is false on every value. -/
theorem move_ctor_spec (b : BinarySearchTree) :
    b.moveCtor.1 = b ∧ b.moveCtor.2.size = 0 ∧
      ∀ v, b.moveCtor.2.contains v = false :=
  ⟨rfl, rfl, fun _ => rfl⟩

/-- C10.  For every tree satisfying the BST ordering invariant, the
copy constructor's pre-order re-insertion reproduces the root structure
node for node, so the shape-sensitive `operator==` returns true on
(copy, original). -/
theorem copy_structural_identity (b : BinarySearchTree) (hv : Valid b) :
    b.copy.m_root = b.m_root ∧ b.copy.beq b = true := by
  obtain ⟨hroot, -⟩ := copy_root_eq b hv
  refine ⟨hroot, ?_⟩
  rw [BinarySearchTree.beq, hroot]
  exact prefix_comp_refl b.m_root

/-- Witness for C10 at the three-node balanced tree 4, 2, 6. -/
theorem copy_structural_identity_witness :
    Valid ⟨Tree.node 4 (Tree.node 2 Tree.nil Tree.nil)
        (Tree.node 6 Tree.nil Tree.nil), 3⟩ ∧
      ((⟨Tree.node 4 (Tree.node 2 Tree.nil Tree.nil)
          (Tree.node 6 Tree.nil Tree.nil), 3⟩ :
            BinarySearchTree).copy.m_root =
        (⟨Tree.node 4 (Tree.node 2 Tree.nil Tree.nil)
          (Tree.node 6 Tree.nil Tree.nil), 3⟩ :
            BinarySearchTree).m_root ∧
        (⟨Tree.node 4 (Tree.node 2 Tree.nil Tree.nil)
          (Tree.node 6 Tree.nil Tree.nil), 3⟩ :
            BinarySearchTree).copy.beq
          ⟨Tree.node 4 (Tree.node 2 Tree.nil Tree.nil)
            (Tree.node 6 Tree.nil Tree.nil), 3⟩ = true) :=
  ⟨by unfold Valid; decide,
    copy_structural_identity ⟨Tree.node 4 (Tree.node 2 Tree.nil Tree.nil)
      (Tree.node 6 Tree.nil Tree.nil), 3⟩ (by unfold Valid; decide)⟩

end cppclass
